import Mathlib

/-!
# FlowLM `optimal_solution.py` — formal model and verification

Shallow embedding of the core path-search-and-evaluation engine of the
FlowLM repository (`src/optimal_solution.py`, class `OptimalSolver`):

* `OptimalSolver.find_all_simple_paths_dfs` — DFS enumeration of simple
  paths with an optional maximum path length;
* `OptimalSolver.calculate_mlu_for_path` — maximum link utilization of the
  whole topology after provisionally adding a bandwidth along a path;
* `OptimalSolver.find_optimal_path` — evaluates every candidate path, sorts
  by MLU (Python's stable `list.sort`) and returns the best one.

The NetworkX graph is modelled as a node list plus an edge list carrying
rational weights.  `graph.neighbors` raises a NetworkX error when queried
on a node that is not in the graph; this is the only failure point of the
Python code, modelled with `Except Err`.  Numbers are rationals (`ℚ`):
the Python floats on these inputs are exact small fractions.
-/

namespace FlowLM

/-- Node labels; NetworkX node identity is modelled by a decidable label. -/
abbrev Node := Nat

/-- One undirected edge of the NetworkX graph with its `weight` attribute
(`data.get('weight', 0)` always finds the stored weight in this model). -/
structure Edge where
  u : Node
  v : Node
  weight : ℚ
deriving DecidableEq

/-- The NetworkX graph: its node list and its edge list, both in insertion
order (NetworkX iteration order is insertion order). -/
structure Graph where
  nodes : List Node
  edges : List Edge
deriving DecidableEq

/-- The single failure of the Python code: `graph.neighbors(n)` raises
`NetworkXError("The node n is not in the graph.")` when `n` is absent. -/
inductive Err where
  | nodeNotInGraph
deriving DecidableEq

instance {ε α : Type} [DecidableEq ε] [DecidableEq α] :
    DecidableEq (Except ε α) := fun x y =>
  match x, y with
  | .ok a, .ok b =>
    if h : a = b then isTrue (by rw [h]) else isFalse (by intro hc; injection hc; exact h (by assumption))
  | .error a, .error b =>
    if h : a = b then isTrue (by rw [h]) else isFalse (by intro hc; injection hc; exact h (by assumption))
  | .ok _, .error _ => isFalse (by intro hc; exact Except.noConfusion hc)
  | .error _, .ok _ => isFalse (by intro hc; exact Except.noConfusion hc)

/-- `a` and `b` are joined by an edge of the graph (undirected). -/
def Graph.hasEdge (G : Graph) (a b : Node) : Bool :=
  G.edges.any fun e => (e.u == a && e.v == b) || (e.u == b && e.v == a)

/-- Adjacency of `a`, in edge-insertion order, as NetworkX reports it. -/
def Graph.neighborList (G : Graph) (a : Node) : List Node :=
  G.edges.filterMap fun e =>
    if e.u == a then some e.v else if e.v == a then some e.u else none

/-- `graph.neighbors(a)`: the adjacency of `a`, or the NetworkX error when
`a` is not a node of the graph. -/
def Graph.neighbors (G : Graph) (a : Node) : Except Err (List Node) :=
  if a ∈ G.nodes then .ok (G.neighborList a) else .error .nodeNotInGraph

/-- Well-formed graph in the NetworkX sense: adding an edge adds its
endpoints as nodes, so every edge endpoint is a node of the graph. -/
def Graph.WF (G : Graph) : Prop :=
  ∀ e ∈ G.edges, e.u ∈ G.nodes ∧ e.v ∈ G.nodes

instance (G : Graph) : Decidable G.WF :=
  decidable_of_iff (∀ e ∈ G.edges, e.u ∈ G.nodes ∧ e.v ∈ G.nodes) Iff.rfl

/-- The Python guard `if max_path_length and len(path) >= max_path_length`:
`None` and `0` are falsy, so a bound of `0` never prunes. -/
def boundHit (maxLen : Option Nat) (pathLen : Nat) : Bool :=
  match maxLen with
  | none => false
  | some m => decide (m ≠ 0) && decide (m ≤ pathLen)

/-- The `OptimalSolver` object: the graph it was built over and the
`total_capacity` shared by every edge (Python default `10`). -/
structure OptimalSolver where
  graph : Graph
  total_capacity : ℚ

/-- The `for neighbor in self.graph.neighbors(current)` loop of `dfs`:
skip visited neighbors, run the recursion `next` (the `dfs` call one fuel
level down) on the rest, collecting emitted paths in DFS discovery order;
a raised error aborts the whole enumeration. -/
def dfsNeighbors
    (next : Node → List Node → List Node → Except Err (List (List Node))) :
    List Node → List Node → List Node → List (List Node) →
    Except Err (List (List Node))
  | [], _, _, acc => .ok acc
  | n :: ns, visited, path, acc =>
    if n ∈ visited then dfsNeighbors next ns visited path acc
    else
      match next n visited (path ++ [n]) with
      | .error e => .error e
      | .ok r => dfsNeighbors next ns visited path (acc ++ r)

/-- The inner `dfs(current, target, visited, path)` of
`find_all_simple_paths_dfs`.  `fuel` only drives termination; the caller
passes more fuel than any simple path can consume, and fuel exhaustion
returns the empty path list.  Emitting a path appends `path.copy()`;
pruning and backtracking follow the Python code line by line. -/
def dfs (G : Graph) (target : Node) (maxLen : Option Nat) :
    Nat → Node → List Node → List Node → Except Err (List (List Node))
  | 0, _, _, _ => .ok []
  | fuel + 1, current, visited, path =>
    if current = target then .ok [path]
    else if boundHit maxLen path.length then .ok []
    else
      match G.neighbors current with
      | .error e => .error e
      | .ok ns => dfsNeighbors (dfs G target maxLen fuel) ns (current :: visited) path []

/-- `OptimalSolver.find_all_simple_paths_dfs(source, target,
max_path_length)`: run the DFS from `dfs(source, target, set(), [source])`.
The fuel `|nodes| + 1` exceeds the length of every simple path. -/
def OptimalSolver.find_all_simple_paths_dfs (S : OptimalSolver)
    (source target : Node) (max_path_length : Option Nat) :
    Except Err (List (List Node)) :=
  dfs S.graph target max_path_length (S.graph.nodes.length + 1) source [] [source]

/-- The inner loop of `calculate_mlu_for_path` deciding whether edge
`(u, v)` lies on `path`: some consecutive pair matches in either
direction. -/
def edgeOnPath (path : List Node) (u v : Node) : Bool :=
  (path.zip path.tail).any fun p =>
    (p.1 == u && p.2 == v) || (p.1 == v && p.2 == u)

/-- `OptimalSolver.calculate_mlu_for_path(path, bandwidth)`: starting from
`max_utilization = 0`, fold over every edge of the graph, provisionally
adding `bandwidth` to the edges on the path, and take the maximum
utilization `new_weight / total_capacity`. -/
def OptimalSolver.calculate_mlu_for_path (S : OptimalSolver)
    (path : List Node) (bandwidth : ℚ) : ℚ :=
  S.graph.edges.foldl
    (fun max_utilization e =>
      let current_weight := e.weight
      let new_weight :=
        if edgeOnPath path e.u e.v then current_weight + bandwidth
        else current_weight
      max max_utilization (new_weight / S.total_capacity))
    0

/-- `OptimalSolver.find_optimal_path(source, target, bandwidth,
max_path_length)`: enumerate the candidate paths; on an empty candidate
list return `(None, float('inf'), [])` (here `⊤ : WithTop ℚ` stands for
`float('inf')`); otherwise evaluate every path, sort the `(path, mlu)`
list by MLU with `path_mlu_list.sort(key=lambda x: x[1])` — a stable
ascending sort, modelled by insertion sort, which is also stable: two
stable sorts by the same key produce the same list — and return the first
entry together with the whole ranking.  The `[]` case after the sort is
unreachable: Python indexes `path_mlu_list[0]` of a nonempty list. -/
def OptimalSolver.find_optimal_path (S : OptimalSolver)
    (source target : Node) (bandwidth : ℚ) (max_path_length : Option Nat) :
    Except Err (Option (List Node) × WithTop ℚ × List (List Node × ℚ)) :=
  match S.find_all_simple_paths_dfs source target max_path_length with
  | .error e => .error e
  | .ok all_paths =>
    if all_paths = [] then .ok (none, ⊤, [])
    else
      let path_mlu_list :=
        all_paths.map fun path => (path, S.calculate_mlu_for_path path bandwidth)
      let sorted := path_mlu_list.insertionSort fun a b => a.2 ≤ b.2
      match sorted with
      | [] => .ok (none, ⊤, [])
      | (optimal_path, optimal_mlu) :: _ =>
        .ok (some optimal_path, (optimal_mlu : WithTop ℚ), sorted)

/-- A kernel-reducible decision procedure for `List.Chain` (the Mathlib
instance is built by tactics and does not evaluate inside `decide`). -/
def decChain {R : Node → Node → Prop} (dR : ∀ a b, Decidable (R a b)) :
    ∀ (a : Node) (l : List Node), Decidable (List.Chain R a l)
  | _, [] => isTrue List.Chain.nil
  | a, b :: l =>
    match dR a b, decChain dR b l with
    | isTrue h1, isTrue h2 => isTrue (List.Chain.cons h1 h2)
    | isFalse h1, _ => isFalse fun hc => h1 (List.chain_cons.1 hc).1
    | _, isFalse h2 => isFalse fun hc => h2 (List.chain_cons.1 hc).2

instance instDecChainNode {R : Node → Node → Prop} [DecidableRel R]
    (a : Node) (l : List Node) : Decidable (List.Chain R a l) :=
  decChain (fun _ _ => inferInstance) a l

/-- Kernel-reducible decidability for `List.Chain'` on nodes. -/
instance instDecChainNode' {R : Node → Node → Prop} [DecidableRel R] :
    ∀ (l : List Node), Decidable (List.Chain' R l)
  | [] => isTrue trivial
  | a :: l => decidable_of_iff (List.Chain R a l) Iff.rfl

/-- A kernel-reducible decision procedure for `List.Pairwise` on nodes
(covers `List.Nodup`). -/
def decPairwise {R : Node → Node → Prop} (dR : ∀ a b, Decidable (R a b)) :
    ∀ (l : List Node), Decidable (List.Pairwise R l)
  | [] => isTrue List.Pairwise.nil
  | a :: l =>
    haveI : DecidablePred (R a) := fun b => dR a b
    match inferInstanceAs (Decidable (∀ b ∈ l, R a b)), decPairwise dR l with
    | isTrue h1, isTrue h2 => isTrue (List.pairwise_cons.2 ⟨h1, h2⟩)
    | isFalse h1, _ => isFalse fun hc => h1 (List.pairwise_cons.1 hc).1
    | _, isFalse h2 => isFalse fun hc => h2 (List.pairwise_cons.1 hc).2

instance instDecPairwiseNode {R : Node → Node → Prop} [DecidableRel R]
    (l : List Node) : Decidable (List.Pairwise R l) :=
  decPairwise (fun _ _ => inferInstance) l

/-- A simple path of the graph from `source` to `target` in the sense of
the specification: starts at `source`, ends at `target`, no repeated node,
and every consecutive pair is an edge of the topology. -/
def IsSimplePath (G : Graph) (source target : Node) (p : List Node) : Prop :=
  p.head? = some source ∧ p.getLast? = some target ∧ p.Nodup ∧
    List.Chain' (fun a b => G.hasEdge a b = true) p

instance (G : Graph) (s t : Node) (p : List Node) :
    Decidable (IsSimplePath G s t p) :=
  decidable_of_iff (p.head? = some s ∧ p.getLast? = some t ∧ p.Nodup ∧
    List.Chain' (fun a b => G.hasEdge a b = true) p) Iff.rfl

/-- The state invariant of the recursive `dfs(current, target, visited,
path)`: the search buffer `path` runs from the original source `s` to
`current`, repeats no node, its node set is exactly `visited` plus
`current`, every step follows an edge, and it respects the (truthy) length
bound. -/
def DfsInv (G : Graph) (s current : Node) (visited path : List Node)
    (ml : Option Nat) : Prop :=
  path.head? = some s ∧ path.getLast? = some current ∧ path.Nodup ∧
  (∀ x, x ∈ path ↔ x = current ∨ x ∈ visited) ∧
  List.Chain' (fun a b => G.hasEdge a b = true) path ∧
  (∀ m, ml = some m → m ≠ 0 → path.length ≤ m)

/-! ## State-passing variants

The Python topology is a mutable object owned by the caller.  To make the
frame property ("the core never mutates the caller's topology") a theorem
rather than a convention of the embedding, the graph is threaded through
every NetworkX access as explicit state: each primitive receives the
current graph and returns the (possibly new) graph together with its
result.  The state-passing functions below mirror the pure ones access
for access; the frame theorem proves they return the input graph
unchanged and compute exactly the pure results. -/

/-- `graph.neighbors(a)` as a state-passing read: NetworkX only reads. -/
def Graph.neighborsSt (g : Graph) (a : Node) :
    Except Err (List Node) × Graph :=
  (g.neighbors a, g)

/-- `graph.edges(data=True)` as a state-passing read. -/
def Graph.edgesSt (g : Graph) : List Edge × Graph :=
  (g.edges, g)

/-- State-passing variant of the `dfs` neighbor loop. -/
def dfsNeighborsSt
    (next : Node → List Node → List Node → Graph →
      Except Err (List (List Node)) × Graph) :
    List Node → List Node → List Node → List (List Node) → Graph →
    Except Err (List (List Node)) × Graph
  | [], _, _, acc, g => (.ok acc, g)
  | n :: ns, visited, path, acc, g =>
    if n ∈ visited then dfsNeighborsSt next ns visited path acc g
    else
      match next n visited (path ++ [n]) g with
      | (.error e, g') => (.error e, g')
      | (.ok r, g') => dfsNeighborsSt next ns visited path (acc ++ r) g'

/-- State-passing variant of `dfs`. -/
def dfsSt (target : Node) (maxLen : Option Nat) :
    Nat → Node → List Node → List Node → Graph →
    Except Err (List (List Node)) × Graph
  | 0, _, _, _, g => (.ok [], g)
  | fuel + 1, current, visited, path, g =>
    if current = target then (.ok [path], g)
    else if boundHit maxLen path.length then (.ok [], g)
    else
      match g.neighborsSt current with
      | (.error e, g') => (.error e, g')
      | (.ok ns, g') =>
        dfsNeighborsSt (dfsSt target maxLen fuel) ns (current :: visited) path [] g'

/-- State-passing variant of `find_all_simple_paths_dfs`. -/
def find_all_simple_paths_dfs_st (S : OptimalSolver) (source target : Node)
    (max_path_length : Option Nat) : Except Err (List (List Node)) × Graph :=
  dfsSt target max_path_length (S.graph.nodes.length + 1) source [] [source]
    S.graph

/-- State-passing variant of `calculate_mlu_for_path`. -/
def calculate_mlu_for_path_st (total_capacity : ℚ) (path : List Node)
    (bandwidth : ℚ) (g : Graph) : ℚ × Graph :=
  match g.edgesSt with
  | (es, g') =>
    (es.foldl
      (fun max_utilization e =>
        let current_weight := e.weight
        let new_weight :=
          if edgeOnPath path e.u e.v then current_weight + bandwidth
          else current_weight
        max max_utilization (new_weight / total_capacity))
      0, g')

/-- State-passing variant of `find_optimal_path`. -/
def find_optimal_path_st (S : OptimalSolver) (source target : Node)
    (bandwidth : ℚ) (max_path_length : Option Nat) :
    Except Err (Option (List Node) × WithTop ℚ × List (List Node × ℚ)) ×
      Graph :=
  match find_all_simple_paths_dfs_st S source target max_path_length with
  | (.error e, g) => (.error e, g)
  | (.ok all_paths, g) =>
    if all_paths = [] then (.ok (none, ⊤, []), g)
    else
      match all_paths.foldl
        (fun (acc : List (List Node × ℚ) × Graph) path =>
          match calculate_mlu_for_path_st S.total_capacity path bandwidth
            acc.2 with
          | (mlu, g'') => (acc.1 ++ [(path, mlu)], g''))
        ([], g) with
      | (path_mlu_list, g') =>
        match path_mlu_list.insertionSort fun a b => a.2 ≤ b.2 with
        | [] => (.ok (none, ⊤, []), g')
        | (optimal_path, optimal_mlu) :: rest =>
          (.ok (some optimal_path, (optimal_mlu : WithTop ℚ),
            (optimal_path, optimal_mlu) :: rest), g')

/-! ## Concrete topologies used as test inputs

`ringSolver` is Scenario A of the specification (4-node ring, all weights
2); `chainSolver` is Scenario B (chain 1-2-3, weights 1 and 8);
`edgeSolver` is a single edge; `disconnectedSolver` is Scenario C (two
components); `zeroEdgeSolver` has a node and no edge.  All use the default
`total_capacity = 10`. -/

def ringSolver : OptimalSolver :=
  ⟨⟨[1, 2, 3, 4], [⟨1, 2, 2⟩, ⟨2, 3, 2⟩, ⟨3, 4, 2⟩, ⟨4, 1, 2⟩]⟩, 10⟩

def chainSolver : OptimalSolver :=
  ⟨⟨[1, 2, 3], [⟨1, 2, 1⟩, ⟨2, 3, 8⟩]⟩, 10⟩

def edgeSolver : OptimalSolver :=
  ⟨⟨[1, 2], [⟨1, 2, 2⟩]⟩, 10⟩

def disconnectedSolver : OptimalSolver :=
  ⟨⟨[1, 2, 3, 4], [⟨1, 2, 1⟩, ⟨3, 4, 1⟩]⟩, 10⟩

def zeroEdgeSolver : OptimalSolver :=
  ⟨⟨[1], []⟩, 10⟩

/-! ## Basic lemmas about the graph model -/

theorem mem_neighborList_iff {G : Graph} {a n : Node} :
    n ∈ G.neighborList a ↔ G.hasEdge a n = true := by
  simp only [Graph.neighborList, Graph.hasEdge, List.mem_filterMap, List.any_eq_true,
    Bool.or_eq_true, Bool.and_eq_true, beq_iff_eq]
  constructor
  · rintro ⟨e, he, hsome⟩
    refine ⟨e, he, ?_⟩
    by_cases hu : e.u = a
    · simp only [hu, beq_self_eq_true, if_true, Option.some.injEq] at hsome
      exact Or.inl ⟨hu, hsome⟩
    · by_cases hv : e.v = a
      · simp only [hu, hv, beq_self_eq_true, if_true, beq_iff_eq, if_false,
          if_neg hu, Option.some.injEq] at hsome
        exact Or.inr ⟨hsome, hv⟩
      · simp [hu, hv] at hsome
  · rintro ⟨e, he, ⟨hu, hv⟩ | ⟨hu, hv⟩⟩
    · refine ⟨e, he, ?_⟩
      simp [hu, hv]
    · refine ⟨e, he, ?_⟩
      by_cases hua : e.u = a
      · have hva : e.v = n := by rw [hv, ← hua, hu]
        simp [hua, hva]
      · simp only [hua, hv, hu, if_neg (by simpa using hua), beq_self_eq_true,
          if_true]
        split
        next h => rw [h]
        next => rfl

theorem neighbors_ok {G : Graph} {a : Node} {ns : List Node}
    (h : G.neighbors a = .ok ns) : a ∈ G.nodes ∧ ns = G.neighborList a := by
  unfold Graph.neighbors at h
  split at h
  · exact ⟨by assumption, by injection h with h; exact h.symm⟩
  · exact absurd h (by simp)

theorem neighbors_mem {G : Graph} {a : Node} (h : a ∈ G.nodes) :
    G.neighbors a = .ok (G.neighborList a) := by
  unfold Graph.neighbors
  exact if_pos h

theorem neighbors_absent {G : Graph} {a : Node} (h : a ∉ G.nodes) :
    G.neighbors a = .error .nodeNotInGraph := by
  unfold Graph.neighbors
  exact if_neg h

theorem hasEdge_mem_nodes {G : Graph} (wf : G.WF) {a b : Node}
    (h : G.hasEdge a b = true) : a ∈ G.nodes ∧ b ∈ G.nodes := by
  simp only [Graph.hasEdge, List.any_eq_true, Bool.or_eq_true, Bool.and_eq_true,
    beq_iff_eq] at h
  obtain ⟨e, he, ⟨hu, hv⟩ | ⟨hu, hv⟩⟩ := h
  · exact ⟨hu ▸ (wf e he).1, hv ▸ (wf e he).2⟩
  · exact ⟨hv ▸ (wf e he).2, hu ▸ (wf e he).1⟩

theorem boundHit_false_iff {ml : Option Nat} {L : Nat} :
    boundHit ml L = false ↔ ∀ m, ml = some m → m ≠ 0 → L < m := by
  cases ml with
  | none => simp [boundHit]
  | some m =>
    simp only [boundHit, Bool.and_eq_false_iff, decide_eq_false_iff_not, ne_eq,
      not_not, Option.some.injEq, Nat.not_le]
    constructor
    · rintro (h | h) m' hm' h0
      · exact absurd (hm' ▸ h) h0
      · exact hm' ▸ h
    · intro h
      by_cases h0 : m = 0
      · exact Or.inl h0
      · exact Or.inr (h m rfl h0)

/-! ## The DFS invariant and soundness -/

theorem DfsInv.init (G : Graph) (s : Node) (ml : Option Nat) :
    DfsInv G s s [] [s] ml := by
  refine ⟨rfl, rfl, List.nodup_singleton s, by simp, List.chain'_singleton s, ?_⟩
  intro m _ h0
  simp only [List.length_singleton]
  omega

theorem DfsInv.step {G : Graph} {s current : Node} {visited path : List Node}
    {ml : Option Nat} {n : Node}
    (inv : DfsInv G s current visited path ml)
    (hn : G.hasEdge current n = true)
    (hnv : ¬(n = current ∨ n ∈ visited))
    (hb : boundHit ml path.length = false) :
    DfsInv G s n (current :: visited) (path ++ [n]) ml := by
  obtain ⟨hhead, hlast, hnodup, hiff, hchain, hlen⟩ := inv
  have hne : path ≠ [] := by
    intro h; rw [h] at hhead; exact Option.noConfusion hhead
  have hnp : n ∉ path := fun h => hnv ((hiff n).1 h)
  refine ⟨?_, ?_, ?_, ?_, ?_, ?_⟩
  · cases path with
    | nil => exact absurd rfl hne
    | cons a l => simpa using hhead
  · exact List.getLast?_concat path
  · rw [List.nodup_append]
    refine ⟨hnodup, List.nodup_singleton n, ?_⟩
    intro x hx hxn
    rw [List.mem_singleton] at hxn
    subst hxn
    exact hnp hx
  · intro x
    simp only [List.mem_append, List.mem_singleton, List.mem_cons, hiff x]
    tauto
  · rw [List.chain'_append]
    refine ⟨hchain, List.chain'_singleton n, ?_⟩
    intro x hx y hy
    rw [hlast] at hx
    simp only [List.head?_cons, Option.mem_def, Option.some.injEq] at hx hy
    rw [← hx, ← hy]
    exact hn
  · intro m hm h0
    have := (boundHit_false_iff.1 hb) m hm h0
    rw [List.length_append, List.length_singleton]
    omega

/-- Membership in the output of the neighbor loop decomposes into the
accumulated paths plus the outputs of the recursive calls on unvisited
neighbors. -/
theorem dfsNeighbors_ok_mem
    {next : Node → List Node → List Node → Except Err (List (List Node))} :
    ∀ (ns : List Node) {visited path : List Node} {acc out : List (List Node)},
      dfsNeighbors next ns visited path acc = .ok out →
      ∀ p ∈ out, p ∈ acc ∨
        ∃ n ∈ ns, n ∉ visited ∧
          ∃ r, next n visited (path ++ [n]) = .ok r ∧ p ∈ r := by
  intro ns
  induction ns with
  | nil =>
    intro visited path acc out h p hp
    unfold dfsNeighbors at h
    injection h with h
    exact Or.inl (h ▸ hp)
  | cons n ns ih =>
    intro visited path acc out h p hp
    unfold dfsNeighbors at h
    by_cases hv : n ∈ visited
    · rw [if_pos hv] at h
      rcases ih h p hp with hacc | ⟨n', hn', hnv', r, hr, hpr⟩
      · exact Or.inl hacc
      · exact Or.inr ⟨n', List.mem_cons_of_mem n hn', hnv', r, hr, hpr⟩
    · rw [if_neg hv] at h
      cases hdfs : next n visited (path ++ [n]) with
      | error e => rw [hdfs] at h; exact absurd h (by simp)
      | ok r =>
        rw [hdfs] at h
        rcases ih h p hp with hacc | ⟨n', hn', hnv', r', hr', hpr'⟩
        · rcases List.mem_append.1 hacc with h1 | h2
          · exact Or.inl h1
          · exact Or.inr ⟨n, List.mem_cons_self n ns, hv, r, hdfs, h2⟩
        · exact Or.inr ⟨n', List.mem_cons_of_mem n hn', hnv', r', hr', hpr'⟩

/-- Soundness of the DFS: in an invariant-respecting state, every emitted
path is a simple path from `s` to the target that respects the bound. -/
theorem dfs_sound {G : Graph} {s t : Node} {ml : Option Nat} :
    ∀ (fuel : Nat) {current : Node} {visited path : List Node}
      {ps : List (List Node)},
      dfs G t ml fuel current visited path = .ok ps →
      DfsInv G s current visited path ml →
      ∀ p ∈ ps, IsSimplePath G s t p ∧
        (∀ m, ml = some m → m ≠ 0 → p.length ≤ m) := by
  intro fuel
  induction fuel with
  | zero =>
    intro current visited path ps h _ p hp
    unfold dfs at h
    injection h with h
    rw [← h] at hp
    exact absurd hp (List.not_mem_nil p)
  | succ fuel ih =>
    intro current visited path ps h inv p hp
    unfold dfs at h
    by_cases hct : current = t
    · rw [if_pos hct] at h
      injection h with h
      rw [← h, List.mem_singleton] at hp
      subst hp
      obtain ⟨hhead, hlast, hnodup, _, hchain, hlen⟩ := inv
      exact ⟨⟨hhead, hct ▸ hlast, hnodup, hchain⟩, hlen⟩
    · rw [if_neg hct] at h
      by_cases hb : boundHit ml path.length = true
      · rw [if_pos hb] at h
        injection h with h
        rw [← h] at hp
        exact absurd hp (List.not_mem_nil p)
      · rw [Bool.not_eq_true] at hb
        rw [hb, if_neg (by simp)] at h
        cases hns : G.neighbors current with
        | error e => rw [hns] at h; exact absurd h (by simp)
        | ok ns =>
          rw [hns] at h
          obtain ⟨_, hns_eq⟩ := neighbors_ok hns
          rcases dfsNeighbors_ok_mem ns h p hp with hacc | ⟨n, hn, hnv, r, hr, hpr⟩
          · exact absurd hacc (List.not_mem_nil p)
          · have hedge : G.hasEdge current n = true :=
              mem_neighborList_iff.1 (hns_eq ▸ hn)
            have inv' : DfsInv G s n (current :: visited) (path ++ [n]) ml :=
              inv.step hedge (by simpa using hnv) hb
            exact ih hr inv' p hpr

/-! ## The DFS cannot fail from a node of the graph -/

theorem dfsNeighbors_no_error {G : Graph}
    {next : Node → List Node → List Node → Except Err (List (List Node))}
    (H : ∀ (n : Node) (visited path : List Node), n ∈ G.nodes →
      ∃ ps, next n visited path = .ok ps) :
    ∀ (ns : List Node), (∀ n ∈ ns, n ∈ G.nodes) →
      ∀ (visited path : List Node) (acc : List (List Node)),
        ∃ out, dfsNeighbors next ns visited path acc = .ok out ∧
          ∀ y ∈ acc, y ∈ out := by
  intro ns
  induction ns with
  | nil =>
    intro _ visited path acc
    exact ⟨acc, by unfold dfsNeighbors; exact rfl, fun y hy => hy⟩
  | cons n ns ih =>
    intro hns visited path acc
    by_cases hv : n ∈ visited
    · obtain ⟨out, hout, hsub⟩ :=
        ih (fun m hm => hns m (List.mem_cons_of_mem n hm)) visited path acc
      exact ⟨out, by unfold dfsNeighbors; rw [if_pos hv]; exact hout, hsub⟩
    · obtain ⟨r, hr⟩ := H n visited (path ++ [n]) (hns n (List.mem_cons_self n ns))
      obtain ⟨out, hout, hsub⟩ :=
        ih (fun m hm => hns m (List.mem_cons_of_mem n hm)) visited path (acc ++ r)
      refine ⟨out, ?_, fun y hy => hsub y (List.mem_append_left r hy)⟩
      unfold dfsNeighbors
      rw [if_neg hv, hr]
      exact hout

theorem dfs_no_error {G : Graph} {t : Node} {ml : Option Nat} (wf : G.WF) :
    ∀ (fuel : Nat) (current : Node) (visited path : List Node),
      current ∈ G.nodes →
      ∃ ps, dfs G t ml fuel current visited path = .ok ps := by
  intro fuel
  induction fuel with
  | zero =>
    intro current visited path _
    exact ⟨[], by unfold dfs; exact rfl⟩
  | succ fuel ih =>
    intro current visited path hcur
    unfold dfs
    by_cases hct : current = t
    · exact ⟨[path], by rw [if_pos hct]⟩
    · rw [if_neg hct]
      by_cases hb : boundHit ml path.length = true
      · exact ⟨[], by rw [if_pos hb]⟩
      · rw [Bool.not_eq_true] at hb
        rw [hb, if_neg (by simp)]
        rw [neighbors_mem hcur]
        obtain ⟨out, hout, _⟩ :=
          dfsNeighbors_no_error (fun n v p hn => ih n v p hn)
            (G.neighborList current)
            (fun m hm => (hasEdge_mem_nodes wf (mem_neighborList_iff.1 hm)).2)
            (current :: visited) path []
        exact ⟨out, hout⟩

/-! ## Completeness of the DFS -/

theorem dfsNeighbors_complete {G : Graph}
    {next : Node → List Node → List Node → Except Err (List (List Node))}
    (Hok : ∀ (m : Node) (visited path : List Node), m ∈ G.nodes →
      ∃ ps, next m visited path = .ok ps) :
    ∀ (ns : List Node), (∀ m ∈ ns, m ∈ G.nodes) →
      ∀ {visited path : List Node} {n : Node} {r : List (List Node)}
        {x : List Node} (acc : List (List Node)),
        n ∈ ns → n ∉ visited →
        next n visited (path ++ [n]) = .ok r → x ∈ r →
        ∃ out, dfsNeighbors next ns visited path acc = .ok out ∧
          x ∈ out := by
  intro ns
  induction ns with
  | nil =>
    intro _ visited path n r x acc hn _ _ _
    exact absurd hn (List.not_mem_nil n)
  | cons m ns ih =>
    intro hns visited path n r x acc hn hnv hdfs hx
    rcases List.mem_cons.1 hn with heq | htail
    · subst heq
      obtain ⟨out, hout, hsub⟩ :=
        dfsNeighbors_no_error Hok ns
          (fun m' hm' => hns m' (List.mem_cons_of_mem n hm'))
          visited path (acc ++ r)
      refine ⟨out, ?_, hsub x (List.mem_append_right acc hx)⟩
      unfold dfsNeighbors
      rw [if_neg hnv, hdfs]
      exact hout
    · by_cases hv : m ∈ visited
      · obtain ⟨out, hout, hxo⟩ :=
          ih (fun m' hm' => hns m' (List.mem_cons_of_mem m hm')) acc htail hnv hdfs hx
        exact ⟨out, by unfold dfsNeighbors; rw [if_pos hv]; exact hout, hxo⟩
      · obtain ⟨r', hr'⟩ := Hok m visited (path ++ [m]) (hns m (List.mem_cons_self m ns))
        obtain ⟨out, hout, hxo⟩ :=
          ih (fun m' hm' => hns m' (List.mem_cons_of_mem m hm')) (acc ++ r')
            htail hnv hdfs hx
        refine ⟨out, ?_, hxo⟩
        unfold dfsNeighbors
        rw [if_neg hv, hr']
        exact hout

theorem dfs_complete {G : Graph} {s t : Node} {ml : Option Nat} (wf : G.WF) :
    ∀ (ext : List Node) (fuel : Nat) {current : Node} {visited path : List Node},
      ext.length + 1 ≤ fuel →
      current ∈ G.nodes →
      DfsInv G s current visited path ml →
      (path ++ ext).getLast? = some t →
      List.Chain' (fun a b => G.hasEdge a b = true) (path ++ ext) →
      (path ++ ext).Nodup →
      (∀ m, ml = some m → m ≠ 0 → (path ++ ext).length ≤ m) →
      ∃ ps, dfs G t ml fuel current visited path = .ok ps ∧ (path ++ ext) ∈ ps := by
  intro ext
  induction ext with
  | nil =>
    intro fuel current visited path hfuel hcur inv hlast _ _ _
    obtain ⟨fuel, rfl⟩ : ∃ f, fuel = f + 1 := ⟨fuel - 1, by omega⟩
    rw [List.append_nil] at hlast ⊢
    have hct : current = t := by
      obtain ⟨_, hlast', _, _, _, _⟩ := inv
      rw [hlast'] at hlast
      injection hlast
    exact ⟨[path], by unfold dfs; rw [if_pos hct], List.mem_singleton.2 rfl⟩
  | cons n ext ih =>
    intro fuel current visited path hfuel hcur inv hlast hchain hnodup hlen
    obtain ⟨fuel, rfl⟩ : ∃ f, fuel = f + 1 := ⟨fuel - 1, by omega⟩
    obtain ⟨hhead, hlastp, hnodupp, hiff, hchainp, hlenp⟩ := inv
    have hcurp : current ∈ path := List.mem_of_getLast?_eq_some hlastp
    have hdisj : List.Disjoint path (n :: ext) := (List.nodup_append.1 hnodup).2.2
    have hct : current ≠ t := by
      intro hct
      have ht_mem : t ∈ n :: ext := by
        rw [List.getLast?_append_of_ne_nil _ (by simp)] at hlast
        exact List.mem_of_getLast?_eq_some hlast
      exact hdisj (hct ▸ hcurp) ht_mem
    have hnp : n ∉ path := fun hmem => hdisj hmem (List.mem_cons_self n ext)
    have hb : boundHit ml path.length = false := by
      rw [boundHit_false_iff]
      intro m hm h0
      have := hlen m hm h0
      rw [List.length_append, List.length_cons] at this
      omega
    have hedge : G.hasEdge current n = true := by
      have := (List.chain'_append.1 hchain).2.2
      exact this current (by rw [hlastp]; exact rfl) n (by exact rfl)
    have hnn : n ∈ G.nodes := (hasEdge_mem_nodes wf hedge).2
    have hnv : ¬(n = current ∨ n ∈ visited) := fun h => hnp ((hiff n).2 h)
    have inv' : DfsInv G s n (current :: visited) (path ++ [n]) ml :=
      DfsInv.step ⟨hhead, hlastp, hnodupp, hiff, hchainp, hlenp⟩ hedge hnv hb
    have hassoc : (path ++ [n]) ++ ext = path ++ n :: ext := by
      rw [List.append_assoc, List.singleton_append]
    obtain ⟨r, hr, hxr⟩ := ih fuel
      (by simp only [List.length_cons] at hfuel; omega) hnn inv'
      (by rw [hassoc]; exact hlast) (by rw [hassoc]; exact hchain)
      (by rw [hassoc]; exact hnodup) (by rw [hassoc]; exact hlen)
    rw [hassoc] at hxr
    obtain ⟨out, hout, hxo⟩ :=
      dfsNeighbors_complete (fun m v p hm => dfs_no_error wf fuel m v p hm)
        (G.neighborList current)
        (fun m hm => (hasEdge_mem_nodes wf (mem_neighborList_iff.1 hm)).2)
        [] (mem_neighborList_iff.2 hedge) (by simpa using hnv) hr hxr
    refine ⟨out, ?_, hxo⟩
    unfold dfs
    rw [if_neg hct, hb, if_neg (by simp), neighbors_mem hcur]
    exact hout

/-! ## From the recursion to the top-level enumeration -/

theorem chain_subset_nodes {G : Graph} (wf : G.WF) :
    ∀ (l : List Node) (a : Node), a ∈ G.nodes →
      List.Chain' (fun x y => G.hasEdge x y = true) (a :: l) →
      ∀ x ∈ a :: l, x ∈ G.nodes := by
  intro l
  induction l with
  | nil =>
    intro a ha _ x hx
    rw [List.mem_singleton] at hx
    exact hx ▸ ha
  | cons b q ih =>
    intro a ha hchain x hx
    rw [List.chain'_cons] at hchain
    obtain ⟨hab, hbq⟩ := hchain
    rcases List.mem_cons.1 hx with rfl | hx'
    · exact ha
    · exact ih b (hasEdge_mem_nodes wf hab).2 hbq x hx'

theorem simplePath_subset_nodes {G : Graph} (wf : G.WF) {s t : Node}
    {p : List Node} (hs : s ∈ G.nodes) (hp : IsSimplePath G s t p) :
    ∀ x ∈ p, x ∈ G.nodes := by
  obtain ⟨hhead, _, _, hchain⟩ := hp
  cases p with
  | nil => intro x hx; exact absurd hx (List.not_mem_nil x)
  | cons a l =>
    have ha : a = s := by
      rw [List.head?_cons, Option.some.injEq] at hhead
      exact hhead
    exact chain_subset_nodes wf l a (ha ▸ hs) hchain

theorem nodup_length_le {l l' : List Node} (h : l.Nodup)
    (hsub : ∀ x ∈ l, x ∈ l') : l.length ≤ l'.length := by
  classical
  calc l.length = l.toFinset.card := (List.toFinset_card_of_nodup h).symm
    _ ≤ l'.toFinset.card := Finset.card_le_card
        (fun x hx => List.mem_toFinset.2 (hsub x (List.mem_toFinset.1 hx)))
    _ ≤ l'.length := l'.toFinset_card_le

/-- Full characterization of `find_all_simple_paths_dfs` on a well-formed
graph whose source is present: the call succeeds and returns exactly the
simple source-to-target paths whose node count respects the (truthy)
`max_path_length` bound. -/
theorem find_all_simple_paths_dfs_spec (S : OptimalSolver)
    {source target : Node} (ml : Option Nat) (wf : S.graph.WF)
    (hs : source ∈ S.graph.nodes) :
    ∃ ps, S.find_all_simple_paths_dfs source target ml = .ok ps ∧
      ∀ p, p ∈ ps ↔ IsSimplePath S.graph source target p ∧
        ∀ m, ml = some m → m ≠ 0 → p.length ≤ m := by
  obtain ⟨ps, hps⟩ :=
    dfs_no_error wf (S.graph.nodes.length + 1) source [] [source] hs
  refine ⟨ps, hps, fun p => ⟨fun hp => ?_, fun hgood => ?_⟩⟩
  · exact dfs_sound _ hps (DfsInv.init S.graph source ml) p hp
  · obtain ⟨hsp, hb⟩ := hgood
    obtain ⟨q, rfl⟩ : ∃ q, p = source :: q := by
      obtain ⟨hhead, _, _, _⟩ := hsp
      cases p with
      | nil => exact absurd hhead (by simp)
      | cons a l =>
        rw [List.head?_cons, Option.some.injEq] at hhead
        exact ⟨l, by rw [hhead]⟩
    have hsingle : [source] ++ q = source :: q := List.singleton_append
    have hsub : ∀ x ∈ source :: q, x ∈ S.graph.nodes :=
      simplePath_subset_nodes wf hs hsp
    have hlen : (source :: q).length ≤ S.graph.nodes.length :=
      nodup_length_le hsp.2.2.1 hsub
    obtain ⟨hhead, hlast, hnodup, hchain⟩ := hsp
    obtain ⟨ps', hps', hmem⟩ :=
      dfs_complete wf q (S.graph.nodes.length + 1)
        (by rw [List.length_cons] at hlen; omega) hs
        (DfsInv.init S.graph source ml)
        (by rw [hsingle]; exact hlast)
        (by rw [hsingle]; exact hchain)
        (by rw [hsingle]; exact hnodup)
        (by rw [hsingle]; exact hb)
    rw [hps] at hps'
    injection hps' with hps'
    rw [hps']
    rw [hsingle] at hmem
    exact hmem

/-! ## The state-passing variants neither mutate the graph nor change
the result -/

theorem dfsNeighborsSt_eq
    {next : Node → List Node → List Node → Graph →
      Except Err (List (List Node)) × Graph}
    {nextP : Graph → Node → List Node → List Node →
      Except Err (List (List Node))}
    (Hnext : ∀ n v p g, next n v p g = (nextP g n v p, g)) :
    ∀ (ns : List Node) (visited path : List Node) (acc : List (List Node))
      (g : Graph),
      dfsNeighborsSt next ns visited path acc g =
        (dfsNeighbors (nextP g) ns visited path acc, g) := by
  intro ns
  induction ns with
  | nil => intro visited path acc g; rfl
  | cons n ns ih =>
    intro visited path acc g
    unfold dfsNeighborsSt dfsNeighbors
    by_cases hv : n ∈ visited
    · rw [if_pos hv, if_pos hv]
      exact ih visited path acc g
    · rw [if_neg hv, if_neg hv, Hnext]
      cases hnx : nextP g n visited (path ++ [n]) with
      | error e => rfl
      | ok r => exact ih visited path (acc ++ r) g

theorem dfsSt_eq (target : Node) (ml : Option Nat) :
    ∀ (fuel : Nat) (current : Node) (visited path : List Node) (g : Graph),
      dfsSt target ml fuel current visited path g =
        (dfs g target ml fuel current visited path, g) := by
  intro fuel
  induction fuel with
  | zero => intro current visited path g; rfl
  | succ fuel ih =>
    intro current visited path g
    unfold dfsSt dfs
    by_cases hct : current = target
    · rw [if_pos hct, if_pos hct]
    · rw [if_neg hct, if_neg hct]
      by_cases hb : boundHit ml path.length = true
      · rw [if_pos hb, if_pos hb]
      · rw [if_neg hb, if_neg hb]
        simp only [Graph.neighborsSt]
        cases hns : g.neighbors current with
        | error e => rfl
        | ok ns =>
          exact dfsNeighborsSt_eq (fun n v p g => ih n v p g) ns
            (current :: visited) path [] g

theorem find_all_simple_paths_dfs_st_eq (S : OptimalSolver)
    (source target : Node) (ml : Option Nat) :
    find_all_simple_paths_dfs_st S source target ml =
      (S.find_all_simple_paths_dfs source target ml, S.graph) :=
  dfsSt_eq target ml (S.graph.nodes.length + 1) source [] [source] S.graph

theorem calculate_mlu_for_path_st_eq (S : OptimalSolver) (path : List Node)
    (bandwidth : ℚ) :
    calculate_mlu_for_path_st S.total_capacity path bandwidth S.graph =
      (S.calculate_mlu_for_path path bandwidth, S.graph) := rfl

theorem foldl_mlu_st_eq (S : OptimalSolver) (bandwidth : ℚ) :
    ∀ (paths : List (List Node)) (acc : List (List Node × ℚ)),
      paths.foldl
        (fun (a : List (List Node × ℚ) × Graph) path =>
          match calculate_mlu_for_path_st S.total_capacity path bandwidth
            a.2 with
          | (mlu, g'') => (a.1 ++ [(path, mlu)], g''))
        (acc, S.graph) =
      (acc ++ paths.map
        (fun path => (path, S.calculate_mlu_for_path path bandwidth)),
        S.graph) := by
  intro paths
  induction paths with
  | nil => intro acc; simp
  | cons p ps ih =>
    intro acc
    rw [List.foldl_cons]
    show List.foldl _ (acc ++ [(p, S.calculate_mlu_for_path p bandwidth)],
      S.graph) ps = _
    rw [ih]
    simp

theorem find_optimal_path_st_eq (S : OptimalSolver) (source target : Node)
    (bandwidth : ℚ) (ml : Option Nat) :
    find_optimal_path_st S source target bandwidth ml =
      (S.find_optimal_path source target bandwidth ml, S.graph) := by
  unfold find_optimal_path_st OptimalSolver.find_optimal_path
  rw [find_all_simple_paths_dfs_st_eq]
  cases S.find_all_simple_paths_dfs source target ml with
  | error e => rfl
  | ok all_paths =>
    by_cases hemp : all_paths = []
    · subst hemp; rfl
    · dsimp only
      rw [if_neg hemp, if_neg hemp]
      rw [foldl_mlu_st_eq S bandwidth all_paths []]
      rw [List.nil_append]
      dsimp only
      cases hsort : List.insertionSort (fun a b => a.2 ≤ b.2)
        (all_paths.map
          (fun path => (path, S.calculate_mlu_for_path path bandwidth))) with
      | nil => rfl
      | cons hd tl => cases hd; rfl

/-! ## The running maximum of `calculate_mlu_for_path` -/

theorem foldl_max_init_le {f : Edge → ℚ} :
    ∀ (l : List Edge) (a : ℚ), a ≤ l.foldl (fun mx x => max mx (f x)) a := by
  intro l
  induction l with
  | nil => intro a; exact le_refl a
  | cons x l ih =>
    intro a
    rw [List.foldl_cons]
    exact le_trans (le_max_left a (f x)) (ih (max a (f x)))

theorem foldl_max_le {f : Edge → ℚ} :
    ∀ (l : List Edge) (a : ℚ) (e : Edge), e ∈ l →
      f e ≤ l.foldl (fun mx x => max mx (f x)) a := by
  intro l
  induction l with
  | nil => intro a e he; exact absurd he (List.not_mem_nil e)
  | cons x l ih =>
    intro a e he
    rw [List.foldl_cons]
    rcases List.mem_cons.1 he with rfl | he'
    · exact le_trans (le_max_right a (f e)) (foldl_max_init_le l (max a (f e)))
    · exact ih (max a (f x)) e he'

theorem foldl_max_attained {f : Edge → ℚ} :
    ∀ (l : List Edge) (a : ℚ),
      l.foldl (fun mx x => max mx (f x)) a = a ∨
        ∃ e ∈ l, l.foldl (fun mx x => max mx (f x)) a = f e := by
  intro l
  induction l with
  | nil => intro a; exact Or.inl rfl
  | cons x l ih =>
    intro a
    rw [List.foldl_cons]
    rcases ih (max a (f x)) with h | ⟨e, he, heq⟩
    · rcases le_total a (f x) with hle | hle
      · exact Or.inr ⟨x, List.mem_cons_self x l, by rw [h, max_eq_right hle]⟩
      · exact Or.inl (by rw [h, max_eq_left hle])
    · exact Or.inr ⟨e, List.mem_cons_of_mem x he, heq⟩

/-! ## Claim theorems -/

/-- C2.  On a topology with at least one edge, with non-negative weights
(the data-model invariant on committed loads), non-negative bandwidth and
positive capacity, `calculate_mlu_for_path` returns the maximum over ALL
edges of the topology of the provisional weight (current weight plus
bandwidth when some consecutive pair of the path matches the edge in
either direction, current weight otherwise) divided by the capacity:
every edge's provisional utilization is bounded by the result, and some
edge attains it. -/
theorem C2_mlu_is_max_over_all_edges (S : OptimalSolver) (path : List Node)
    (bandwidth : ℚ) (hne : S.graph.edges ≠ []) (hb : 0 ≤ bandwidth)
    (hw : ∀ e ∈ S.graph.edges, 0 ≤ e.weight)
    (hcap : 0 < S.total_capacity) :
    (∀ e ∈ S.graph.edges,
      (if edgeOnPath path e.u e.v then e.weight + bandwidth else e.weight) /
        S.total_capacity ≤ S.calculate_mlu_for_path path bandwidth) ∧
    ∃ e ∈ S.graph.edges,
      S.calculate_mlu_for_path path bandwidth =
        (if edgeOnPath path e.u e.v then e.weight + bandwidth
          else e.weight) / S.total_capacity := by
  have hcalc : S.calculate_mlu_for_path path bandwidth =
      S.graph.edges.foldl
        (fun mx x =>
          max mx ((if edgeOnPath path x.u x.v then x.weight + bandwidth
            else x.weight) / S.total_capacity)) 0 := rfl
  have hnonneg : ∀ e ∈ S.graph.edges,
      0 ≤ (if edgeOnPath path e.u e.v then e.weight + bandwidth
        else e.weight) / S.total_capacity := by
    intro e he
    apply div_nonneg _ hcap.le
    by_cases hon : edgeOnPath path e.u e.v
    · rw [if_pos hon]; exact add_nonneg (hw e he) hb
    · rw [if_neg hon]; exact hw e he
  constructor
  · intro e he
    rw [hcalc]
    exact foldl_max_le S.graph.edges 0 e he
  · rcases foldl_max_attained S.graph.edges 0 with h0 | ⟨e, he, heq⟩
    · obtain ⟨e, he⟩ : ∃ e, e ∈ S.graph.edges := by
        cases hedges : S.graph.edges with
        | nil => exact absurd hedges hne
        | cons x l => exact ⟨x, hedges ▸ List.mem_cons_self x l⟩
      refine ⟨e, he, ?_⟩
      have h1 : (if edgeOnPath path e.u e.v then e.weight + bandwidth
          else e.weight) / S.total_capacity ≤ 0 := by
        rw [← h0]
        exact foldl_max_le S.graph.edges 0 e he
      rw [hcalc, h0]
      exact (le_antisymm h1 (hnonneg e he)).symm
    · exact ⟨e, he, by rw [hcalc, heq]⟩

/-- C5.  Every path returned by `find_all_simple_paths_dfs` is simple and
adjacent: it starts at the source, ends at the target, repeats no node,
and every consecutive pair of its nodes is an edge of the topology. -/
theorem C5_enumerated_paths_are_simple (S : OptimalSolver)
    {source target : Node} {ml : Option Nat} {ps : List (List Node)}
    {p : List Node}
    (h : S.find_all_simple_paths_dfs source target ml = .ok ps)
    (hp : p ∈ ps) : IsSimplePath S.graph source target p :=
  (dfs_sound (S.graph.nodes.length + 1) h (DfsInv.init S.graph source ml)
    p hp).1

/-- C5 witness: on the Scenario A ring, the enumeration from 1 to 3
returns `[1,2,3]` and `[1,4,3]`, and the theorem shows `[1,2,3]` is a
simple, adjacent path. -/
theorem C5_witness :
    ringSolver.find_all_simple_paths_dfs 1 3 none =
      .ok [[1, 2, 3], [1, 4, 3]] ∧
    IsSimplePath ringSolver.graph 1 3 [1, 2, 3] :=
  ⟨by decide, @C5_enumerated_paths_are_simple ringSolver 1 3 none
    [[1, 2, 3], [1, 4, 3]] [1, 2, 3] (by decide) (by decide)⟩

/-- C10.  When source = target = s, the DFS hits the `current == target`
test before the length-bound test and before any neighbor expansion, so
it returns exactly the one-node path `[s]`, whatever `max_path_length`
is. -/
theorem C10_trivial_path_when_source_is_target (S : OptimalSolver)
    (s : Node) (ml : Option Nat) (_hs : s ∈ S.graph.nodes) :
    S.find_all_simple_paths_dfs s s ml = .ok [[s]] := by
  show dfs S.graph s ml (S.graph.nodes.length + 1) s [] [s] = .ok [[s]]
  unfold dfs
  rw [if_pos rfl]

/-- C10 witness: on the ring, source = target = 2 with the tightest
bound still yields exactly `[[2]]`. -/
theorem C10_witness :
    (2 : Node) ∈ ringSolver.graph.nodes ∧
    ringSolver.find_all_simple_paths_dfs 2 2 (some 1) = .ok [[2]] :=
  ⟨by decide,
    C10_trivial_path_when_source_is_target ringSolver 2 (some 1) (by decide)⟩

/-- C1 counterexample.  The claim promises that with `max_hops = 1` every
simple path with at most 1 edge is returned; on a single-edge topology
the code returns no path at all, although `[1, 2]` is a simple path with
`len(path) - 1 = 1 ≤ 1` hops: the pruning test `len(path) >=
max_path_length` counts nodes, not edges. -/
theorem C1_counterexample :
    edgeSolver.find_all_simple_paths_dfs 1 2 (some 1) = .ok [] ∧
    IsSimplePath edgeSolver.graph 1 2 [1, 2] ∧
    ([1, 2] : List Node).length - 1 ≤ 1 := by decide

/-- C1 amended.  On a well-formed topology with the source present,
`find_all_simple_paths_dfs` succeeds and returns exactly the simple
source-to-target paths `p` with `len(p) ≤ max_path_length` — node count,
i.e. hop count `≤ max_path_length - 1` — whenever the bound is provided
and truthy (Python's `if max_path_length and ...`: `None` and `0` mean
unbounded).  A branch is pruned exactly when its current path already has
`max_path_length` nodes without having reached the target. -/
theorem C1_amended_enumeration_bound (S : OptimalSolver)
    {source target : Node} (ml : Option Nat) (wf : S.graph.WF)
    (hs : source ∈ S.graph.nodes) :
    ∃ ps, S.find_all_simple_paths_dfs source target ml = .ok ps ∧
      ∀ p, p ∈ ps ↔ IsSimplePath S.graph source target p ∧
        ∀ m, ml = some m → m ≠ 0 → p.length ≤ m :=
  find_all_simple_paths_dfs_spec S ml wf hs

/-- C1 witness: the amended characterization instantiated on the
Scenario A ring with bound 3. -/
theorem C1_witness :
    ∃ ps, ringSolver.find_all_simple_paths_dfs 1 3 (some 3) = .ok ps ∧
      ∀ p, p ∈ ps ↔ IsSimplePath ringSolver.graph 1 3 p ∧
        ∀ m, (some 3 : Option Nat) = some m → m ≠ 0 → p.length ≤ m :=
  C1_amended_enumeration_bound ringSolver (some 3) (by decide) (by decide)

/-- C4.  When the enumerator finds no candidate path (for instance source
and target in different connected components), `find_optimal_path`
returns the ordinary triple `(None, float('inf'), [])` — no error is
raised. -/
theorem C4_no_feasible_path (S : OptimalSolver) (source target : Node)
    (bandwidth : ℚ) (ml : Option Nat)
    (h : S.find_all_simple_paths_dfs source target ml = .ok []) :
    S.find_optimal_path source target bandwidth ml = .ok (none, ⊤, []) := by
  unfold OptimalSolver.find_optimal_path
  rw [h]
  rfl

/-- C4 witness: on the two-component topology (Scenario C) the search
from 1 to 3 returns `(none, ⊤, [])`. -/
theorem C4_witness :
    disconnectedSolver.find_all_simple_paths_dfs 1 3 none = .ok [] ∧
    disconnectedSolver.find_optimal_path 1 3 2 none = .ok (none, ⊤, []) :=
  ⟨by decide, C4_no_feasible_path disconnectedSolver 1 3 2 none (by decide)⟩

/-- C7 counterexample.  The claim promises an immediate `NodeNotFound`
failure when the target is absent; the code instead returns the empty
enumeration as an ordinary result (node 9 is not in the chain topology,
yet the call succeeds). -/
theorem C7_counterexample :
    chainSolver.find_all_simple_paths_dfs 1 9 none = .ok [] ∧
    (9 : Node) ∉ chainSolver.graph.nodes ∧
    (1 : Node) ∈ chainSolver.graph.nodes := by decide

/-- C7 amended.  `find_all_simple_paths_dfs` performs no membership
validation of its own.  When the source is absent, differs from the
target, and the truthy length bound does not already prune the one-node
start path, the NetworkX neighbor lookup raises its node-not-in-graph
error; on a well-formed topology whose source is present the enumeration
always succeeds — in particular an absent target yields an ordinary
(empty) result, not an error. -/
theorem C7_amended_absent_nodes (S : OptimalSolver) (source target : Node)
    (ml : Option Nat) :
    (source ∉ S.graph.nodes → source ≠ target → boundHit ml 1 = false →
      S.find_all_simple_paths_dfs source target ml =
        .error .nodeNotInGraph) ∧
    (S.graph.WF → source ∈ S.graph.nodes →
      ∃ ps, S.find_all_simple_paths_dfs source target ml = .ok ps) := by
  constructor
  · intro habs hne hbound
    show dfs S.graph target ml (S.graph.nodes.length + 1) source [] [source] =
      .error .nodeNotInGraph
    unfold dfs
    rw [if_neg hne, List.length_singleton, hbound, if_neg (by simp),
      neighbors_absent habs]
  · intro wf hs
    exact dfs_no_error wf (S.graph.nodes.length + 1) source [] [source] hs

/-- C7 witness: enumerating from the absent node 9 raises the
node-not-in-graph error. -/
theorem C7_witness :
    chainSolver.find_all_simple_paths_dfs 9 1 none =
      .error .nodeNotInGraph :=
  (C7_amended_absent_nodes chainSolver 9 1 none).1 (by decide) (by decide)
    (by decide)

/-- C8 counterexample.  The claim promises an `InvalidTopology` rejection
on a zero-edge topology; `calculate_mlu_for_path` has no such check and
returns the sentinel `0` (its initial `max_utilization`). -/
theorem C8_counterexample :
    zeroEdgeSolver.graph.edges = [] ∧
    zeroEdgeSolver.calculate_mlu_for_path [1] 5 = 0 := ⟨rfl, rfl⟩

/-- C8 amended.  On a topology with zero edges, `calculate_mlu_for_path`
performs no validation and returns the initial `max_utilization = 0` as a
sentinel value. -/
theorem C8_amended_zero_edges_returns_zero (S : OptimalSolver)
    (path : List Node) (bandwidth : ℚ) (h : S.graph.edges = []) :
    S.calculate_mlu_for_path path bandwidth = 0 := by
  unfold OptimalSolver.calculate_mlu_for_path
  rw [h]
  rfl

/-- C8 witness: the amended statement instantiated on the zero-edge
topology. -/
theorem C8_witness :
    zeroEdgeSolver.graph.edges = [] ∧
    zeroEdgeSolver.calculate_mlu_for_path [1, 1] 7 = 0 :=
  ⟨rfl, C8_amended_zero_edges_returns_zero zeroEdgeSolver [1, 1] 7 rfl⟩

/-- C9.  None of the three operations mutates the caller's topology: in
the state-passing model, where every NetworkX access threads the graph
explicitly, each operation returns the input graph unchanged (hence every
edge keeps its weight and the node and edge sets are untouched), and the
pure functions compute exactly the same results. -/
theorem C9_topology_never_mutated (S : OptimalSolver)
    (source target : Node) (bandwidth : ℚ) (ml : Option Nat)
    (path : List Node) :
    (find_all_simple_paths_dfs_st S source target ml).2 = S.graph ∧
    (calculate_mlu_for_path_st S.total_capacity path bandwidth S.graph).2 =
      S.graph ∧
    (find_optimal_path_st S source target bandwidth ml).2 = S.graph := by
  refine ⟨?_, rfl, ?_⟩
  · rw [find_all_simple_paths_dfs_st_eq]
  · rw [find_optimal_path_st_eq]

/-- Whenever the enumeration succeeds, `find_optimal_path` returns an
ordinary result (it performs no validation of its own). -/
theorem find_optimal_path_ok_of_enum_ok {S : OptimalSolver}
    {source target : Node} {bandwidth : ℚ} {ml : Option Nat}
    {ps : List (List Node)}
    (h : S.find_all_simple_paths_dfs source target ml = .ok ps) :
    ∃ res, S.find_optimal_path source target bandwidth ml = .ok res := by
  unfold OptimalSolver.find_optimal_path
  rw [h]
  by_cases hemp : ps = []
  · subst hemp
    exact ⟨(none, ⊤, []), rfl⟩
  · dsimp only
    rw [if_neg hemp]
    cases hsort : List.insertionSort (fun a b => a.2 ≤ b.2)
      (ps.map fun path => (path, S.calculate_mlu_for_path path bandwidth))
      with
    | nil => exact ⟨(none, ⊤, []), rfl⟩
    | cons hd tl =>
      cases hd with
      | mk p m => exact ⟨(some p, (m : WithTop ℚ), (p, m) :: tl), rfl⟩

/-- C6 counterexample.  The claim promises an `InvalidDemand` failure
before any enumeration when the bandwidth is negative; the code has no
such check: with bandwidth −5 it enumerates, evaluates (the provisional
weight 2 − 5 gives utilization −3/10, floored by the initial maximum 0)
and returns an ordinary optimal result. -/
theorem C6_counterexample :
    edgeSolver.find_optimal_path 1 2 (-5) none =
      .ok (some [1, 2], ((0 : ℚ) : WithTop ℚ), [([1, 2], 0)]) := by
  have h : edgeSolver.calculate_mlu_for_path [1, 2] (-5) = 0 := by
    show max 0 ((if edgeOnPath [1, 2] 1 2 then 2 + (-5) else 2) / 10) = 0
    rw [if_pos (by decide)]
    rw [max_eq_left (by norm_num)]
  have h0 : edgeSolver.find_optimal_path 1 2 (-5) none =
      .ok (some [1, 2],
        ((edgeSolver.calculate_mlu_for_path [1, 2] (-5) : ℚ) : WithTop ℚ),
        [([1, 2], edgeSolver.calculate_mlu_for_path [1, 2] (-5))]) := rfl
  rw [h0, h]

/-- C6 amended.  `find_optimal_path` performs no bandwidth validation: a
negative bandwidth is accepted, the enumeration proceeds as usual, and an
ordinary result computed with the negative demand is returned. -/
theorem C6_amended_negative_bandwidth_accepted (S : OptimalSolver)
    (source target : Node) (bandwidth : ℚ) (ml : Option Nat)
    (wf : S.graph.WF) (hs : source ∈ S.graph.nodes)
    (_hneg : bandwidth < 0) :
    ∃ res, S.find_optimal_path source target bandwidth ml = .ok res := by
  obtain ⟨ps, hps⟩ :=
    dfs_no_error wf (S.graph.nodes.length + 1) source [] [source] hs
  exact find_optimal_path_ok_of_enum_ok hps

/-- C6 witness: bandwidth −5 on the single-edge topology yields an
ordinary result. -/
theorem C6_witness :
    edgeSolver.graph.WF ∧ (1 : Node) ∈ edgeSolver.graph.nodes ∧
    (-5 : ℚ) < 0 ∧
    ∃ res, edgeSolver.find_optimal_path 1 2 (-5) none = .ok res :=
  ⟨by decide, by decide, by norm_num,
    C6_amended_negative_bandwidth_accepted edgeSolver 1 2 (-5) none
      (by decide) (by decide) (by norm_num)⟩

/-- Stability of the ranking sort, filter form: for every MLU value `v`,
the candidates of MLU `v` appear in the sorted list exactly as they
appear in the evaluated enumeration. -/
theorem insertionSort_filter_eq (pml : List (List Node × ℚ)) (v : ℚ) :
    (List.insertionSort (fun a b => a.2 ≤ b.2) pml).filter
      (fun x => decide (x.2 = v)) =
    pml.filter (fun x => decide (x.2 = v)) := by
  have hcP : ∀ x ∈ pml.filter (fun x => decide (x.2 = v)),
      (fun x : List Node × ℚ => decide (x.2 = v)) x = true :=
    fun x hx => (List.mem_filter.1 hx).2
  have hc_pw : (pml.filter (fun x => decide (x.2 = v))).Pairwise
      (fun a b => a.2 ≤ b.2) := by
    apply List.pairwise_of_forall_mem_list
    intro a ha b hb
    have h1 : a.2 = v := of_decide_eq_true (hcP a ha)
    have h2 : b.2 = v := of_decide_eq_true (hcP b hb)
    rw [h1, h2]
  have hcs : List.Sublist (pml.filter (fun x => decide (x.2 = v)))
      (List.insertionSort (fun a b => a.2 ≤ b.2) pml) :=
    List.sublist_insertionSort hc_pw (List.filter_sublist pml)
  have hlen : ((List.insertionSort (fun a b => a.2 ≤ b.2) pml).filter
      (fun x => decide (x.2 = v))).length =
      (pml.filter (fun x => decide (x.2 = v))).length := by
    rw [← List.countP_eq_length_filter, ← List.countP_eq_length_filter]
    exact (List.perm_insertionSort (fun a b => a.2 ≤ b.2) pml).countP_eq _
  have hcf : List.Sublist (pml.filter (fun x => decide (x.2 = v)))
      ((List.insertionSort (fun a b => a.2 ≤ b.2) pml).filter
        (fun x => decide (x.2 = v))) := by
    have hself : (pml.filter (fun x => decide (x.2 = v))).filter
        (fun x => decide (x.2 = v)) =
        pml.filter (fun x => decide (x.2 = v)) :=
      List.filter_eq_self.2 hcP
    rw [← hself]
    exact List.Sublist.filter _ hcs
  exact (hcf.eq_of_length hlen.symm).symm

/-- C3.  When `find_optimal_path` succeeds with a best path, the returned
candidate list is the stable ascending-by-MLU sort of the evaluated
enumeration: it is sorted by MLU, it is a permutation of the evaluated
candidates, candidates of equal MLU keep their DFS discovery order (the
filters at every MLU value agree), and the returned best path and MLU are
the head of the ranking — the earliest-discovered candidate attaining the
minimum MLU. -/
theorem C3_ranking_stable_sorted (S : OptimalSolver)
    {source target : Node} {bandwidth : ℚ} {ml : Option Nat}
    {ps : List (List Node)} {best : List Node} {bestMlu : WithTop ℚ}
    {ranked : List (List Node × ℚ)}
    (henum : S.find_all_simple_paths_dfs source target ml = .ok ps)
    (hres : S.find_optimal_path source target bandwidth ml =
      .ok (some best, bestMlu, ranked)) :
    List.Pairwise (fun a b => a.2 ≤ b.2) ranked ∧
    ranked.Perm (ps.map fun p => (p, S.calculate_mlu_for_path p bandwidth)) ∧
    (∀ v : ℚ, ranked.filter (fun x => decide (x.2 = v)) =
      (ps.map fun p => (p, S.calculate_mlu_for_path p bandwidth)).filter
        (fun x => decide (x.2 = v))) ∧
    ∃ m0 : ℚ, ranked.head? = some (best, m0) ∧
      bestMlu = (m0 : WithTop ℚ) ∧ (∀ x ∈ ranked, m0 ≤ x.2) ∧
      ((ps.map fun p => (p, S.calculate_mlu_for_path p bandwidth)).filter
        (fun x => decide (x.2 = m0))).head? = some (best, m0) := by
  haveI : IsTotal (List Node × ℚ) (fun a b => a.2 ≤ b.2) :=
    ⟨fun a b => le_total a.2 b.2⟩
  haveI : IsTrans (List Node × ℚ) (fun a b => a.2 ≤ b.2) :=
    ⟨fun _ _ _ h1 h2 => le_trans h1 h2⟩
  unfold OptimalSolver.find_optimal_path at hres
  rw [henum] at hres
  by_cases hemp : ps = []
  · subst hemp
    simp at hres
  · dsimp only at hres
    rw [if_neg hemp] at hres
    have hsorted0 : List.Sorted (fun a b : List Node × ℚ => a.2 ≤ b.2)
        (List.insertionSort (fun a b => a.2 ≤ b.2)
          (ps.map fun p => (p, S.calculate_mlu_for_path p bandwidth))) :=
      List.sorted_insertionSort (fun a b => a.2 ≤ b.2)
        (ps.map fun p => (p, S.calculate_mlu_for_path p bandwidth))
    have hsorted : List.Pairwise (fun a b => a.2 ≤ b.2)
        (List.insertionSort (fun a b => a.2 ≤ b.2)
          (ps.map fun p => (p, S.calculate_mlu_for_path p bandwidth))) :=
      hsorted0
    have hperm : (List.insertionSort (fun a b => a.2 ≤ b.2)
        (ps.map fun p => (p, S.calculate_mlu_for_path p bandwidth))).Perm
        (ps.map fun p => (p, S.calculate_mlu_for_path p bandwidth)) :=
      List.perm_insertionSort (fun a b => a.2 ≤ b.2)
        (ps.map fun p => (p, S.calculate_mlu_for_path p bandwidth))
    cases hsort : List.insertionSort (fun a b => a.2 ≤ b.2)
      (ps.map fun p => (p, S.calculate_mlu_for_path p bandwidth)) with
    | nil =>
      rw [hsort] at hres
      simp at hres
    | cons hd tl =>
      cases hd with
      | mk p0 m0 =>
        rw [hsort] at hres hsorted hperm
        rw [Except.ok.injEq, Prod.mk.injEq, Prod.mk.injEq] at hres
        obtain ⟨hb1, hb2, hb3⟩ := hres
        rw [Option.some.injEq] at hb1
        subst hb1
        rw [← hb3, ← hb2]
        refine ⟨hsorted, hperm, ?_, ?_⟩
        · intro v
          rw [← hsort]
          exact insertionSort_filter_eq
            (ps.map fun p => (p, S.calculate_mlu_for_path p bandwidth)) v
        · refine ⟨m0, rfl, rfl, ?_, ?_⟩
          · intro x hx
            rcases List.mem_cons.1 hx with rfl | hx'
            · exact le_refl _
            · exact (List.pairwise_cons.1 hsorted).1 x hx'
          · rw [← insertionSort_filter_eq
              (ps.map fun p => (p, S.calculate_mlu_for_path p bandwidth)) m0]
            rw [hsort]
            rw [List.filter_cons_of_pos (by simp)]
            rfl

/-- C2 witness: the max-characterization applied to Scenario A (ring,
path `[1,2,3]`, bandwidth 3). -/
theorem C2_witness :
    (ringSolver.graph.edges ≠ [] ∧ (0 : ℚ) ≤ 3 ∧
      (∀ e ∈ ringSolver.graph.edges, 0 ≤ e.weight) ∧
      0 < ringSolver.total_capacity) ∧
    ((∀ e ∈ ringSolver.graph.edges,
        (if edgeOnPath [1, 2, 3] e.u e.v then e.weight + 3 else e.weight) /
          ringSolver.total_capacity ≤
          ringSolver.calculate_mlu_for_path [1, 2, 3] 3) ∧
      ∃ e ∈ ringSolver.graph.edges,
        ringSolver.calculate_mlu_for_path [1, 2, 3] 3 =
          (if edgeOnPath [1, 2, 3] e.u e.v then e.weight + 3
            else e.weight) / ringSolver.total_capacity) :=
  ⟨⟨by decide, by norm_num, by simp [ringSolver],
      by norm_num [ringSolver]⟩,
    C2_mlu_is_max_over_all_edges ringSolver [1, 2, 3] 3 (by decide)
      (by norm_num) (by simp [ringSolver])
      (by norm_num [ringSolver])⟩

/-- C3 witness: the stable-sort characterization instantiated on
Scenario B (single candidate `[1,2,3]`). -/
theorem C3_witness :
    (chainSolver.find_all_simple_paths_dfs 1 3 none = .ok [[1, 2, 3]] ∧
      chainSolver.find_optimal_path 1 3 1 none =
        .ok (some [1, 2, 3],
          ((chainSolver.calculate_mlu_for_path [1, 2, 3] 1 : ℚ) :
            WithTop ℚ),
          [([1, 2, 3], chainSolver.calculate_mlu_for_path [1, 2, 3] 1)])) ∧
    (List.Pairwise (fun a b => a.2 ≤ b.2)
        [([1, 2, 3], chainSolver.calculate_mlu_for_path [1, 2, 3] 1)] ∧
      List.Perm
        [([1, 2, 3], chainSolver.calculate_mlu_for_path [1, 2, 3] 1)]
        ([[1, 2, 3]].map fun p =>
          (p, chainSolver.calculate_mlu_for_path p 1)) ∧
      (∀ v : ℚ,
        List.filter (fun x => decide (x.2 = v))
          [([1, 2, 3], chainSolver.calculate_mlu_for_path [1, 2, 3] 1)] =
        ([[1, 2, 3]].map fun p =>
          (p, chainSolver.calculate_mlu_for_path p 1)).filter
            (fun x => decide (x.2 = v))) ∧
      ∃ m0 : ℚ,
        ([([1, 2, 3], chainSolver.calculate_mlu_for_path [1, 2, 3] 1)] :
          List (List Node × ℚ)).head? = some ([1, 2, 3], m0) ∧
        ((chainSolver.calculate_mlu_for_path [1, 2, 3] 1 : ℚ) :
          WithTop ℚ) = (m0 : WithTop ℚ) ∧
        (∀ x ∈ ([([1, 2, 3],
            chainSolver.calculate_mlu_for_path [1, 2, 3] 1)] :
          List (List Node × ℚ)), m0 ≤ x.2) ∧
        (([[1, 2, 3]].map fun p =>
          (p, chainSolver.calculate_mlu_for_path p 1)).filter
            (fun x => decide (x.2 = m0))).head? = some ([1, 2, 3], m0)) :=
  ⟨⟨by decide, rfl⟩,
    @C3_ranking_stable_sorted chainSolver 1 3 1 none [[1, 2, 3]] [1, 2, 3]
      ((chainSolver.calculate_mlu_for_path [1, 2, 3] 1 : ℚ) : WithTop ℚ)
      [([1, 2, 3], chainSolver.calculate_mlu_for_path [1, 2, 3] 1)]
      (by decide) rfl⟩

end FlowLM
